import Mathlib

/-!
Verification of the content transformation and site assembly engine of
`generate.py` (a static site generator).  Each transformation of the source
is embedded as an executable Lean definition, with a doc comment naming the
source function and lines it was translated from; the theorems at the end of
the file settle the frozen claims about the program.
-/

namespace SiteGen

/-! ### Decimal rendering of a counter

`_fix_anchors` (generate.py line 398) renders the collision counter with the
format expression of a Python f-string, i.e. the usual decimal
representation of a non-negative integer.  `decRepr` embeds that rendering
with fuel-based structural recursion so that concrete instances evaluate by
kernel reduction, and `listVal` recovers the numeric value of a decimal
string, giving injectivity of the rendering. -/

/-- The character of a single decimal digit `d < 10`. -/
def digitCh (d : Nat) : Char := Char.ofNat (48 + d)

/-- Big-endian decimal digits of `n`, empty for `n = 0`; the fuel argument
only bounds the recursion depth (any fuel at least `n` is enough). -/
def decReprAux : Nat → Nat → List Char
  | 0, _ => []
  | fuel + 1, n => if n = 0 then [] else decReprAux fuel (n / 10) ++ [digitCh (n % 10)]

/-- Decimal representation of a natural number, as produced by Python's
string formatting of a non-negative integer. -/
def decRepr (n : Nat) : String :=
  if n = 0 then "0" else String.mk (decReprAux n n)

/-- Numeric value denoted by a list of decimal digit characters. -/
def listVal (l : List Char) : Nat :=
  l.foldl (fun a c => a * 10 + (c.toNat - 48)) 0

theorem listVal_append_singleton (l : List Char) (c : Char) :
    listVal (l ++ [c]) = listVal l * 10 + (c.toNat - 48) := by
  simp [listVal, List.foldl_append]

theorem digitCh_toNat (d : Nat) (hd : d < 10) : (digitCh d).toNat = 48 + d := by
  revert hd
  revert d
  decide

theorem listVal_decReprAux (fuel n : Nat) (h : n < 10 ^ fuel) :
    listVal (decReprAux fuel n) = n := by
  induction fuel generalizing n with
  | zero =>
    interval_cases n
    simp [decReprAux, listVal]
  | succ fuel ih =>
    by_cases hn : n = 0
    · simp [decReprAux, hn, listVal]
    · have hdiv : n / 10 < 10 ^ fuel := by
        rw [Nat.div_lt_iff_lt_mul (by norm_num)]
        calc n < 10 ^ (fuel + 1) := h
        _ = 10 ^ fuel * 10 := by ring
      rw [decReprAux]
      simp only [hn, if_false]
      rw [listVal_append_singleton, ih _ hdiv, digitCh_toNat _ (Nat.mod_lt _ (by norm_num))]
      omega

theorem n_lt_ten_pow (n : Nat) : n < 10 ^ n :=
  lt_of_lt_of_le (Nat.lt_two_pow n) (Nat.pow_le_pow_left (by norm_num) n)

/-- `listVal` is a left inverse of `decRepr`, hence `decRepr` is injective. -/
theorem listVal_decRepr (n : Nat) : listVal (decRepr n).data = n := by
  by_cases hn : n = 0
  · subst hn; decide
  · rw [decRepr]
    simp only [hn, if_false]
    exact listVal_decReprAux n n (n_lt_ten_pow n)

theorem decRepr_injective : Function.Injective decRepr := by
  intro m n h
  have := listVal_decRepr m
  rw [h, listVal_decRepr] at this
  omega

/-! ### Heading id uniquification (`_fix_anchors`, generate.py lines 387-409)

For a heading whose original id is `oid`, the page-variant pass forms
`new_id = "/" + oid` and then runs
`while unique_id in seen_ids: unique_id = f"{new_id}-{counter}"; counter += 1`.
The sequence of candidates tried is `new_id`, `new_id-1`, `new_id-2`, ...;
`candidate base j` is the `j`-th element of that sequence and `uniquify`
returns the first candidate not in the seen set.  The Python loop always
terminates because the seen set is finite; the embedding uses
`seen.length + 1` rounds of fuel, which the pigeonhole lemmas below show is
always enough to reach a fresh candidate. -/

/-- The `j`-th candidate id tried for base id `base`. -/
def candidate (base : String) : Nat → String
  | 0 => base
  | j + 1 => base ++ "-" ++ decRepr (j + 1)

theorem candidate_injective (base : String) : Function.Injective (candidate base) := by
  have hlen : ∀ j : Nat, (candidate base (j + 1)).length = base.length + 1 + (decRepr (j + 1)).length := by
    intro j
    simp only [candidate, String.length_append]
    have : "-".length = 1 := by decide
    omega
  have hdata : ∀ j : Nat, (candidate base (j + 1)).data = base.data ++ '-' :: (decRepr (j + 1)).data := by
    intro j
    simp [candidate, String.data_append]
  intro m n h
  match m, n with
  | 0, 0 => rfl
  | 0, j + 1 =>
    exfalso
    have h0 : candidate base 0 = base := rfl
    have hln := congrArg String.length h
    rw [h0, hlen j] at hln
    omega
  | j + 1, 0 =>
    exfalso
    have h0 : candidate base 0 = base := rfl
    have hln := congrArg String.length h.symm
    rw [h0, hlen j] at hln
    omega
  | j + 1, k + 1 =>
    have hd : (candidate base (j + 1)).data = (candidate base (k + 1)).data := by rw [h]
    rw [hdata j, hdata k] at hd
    have hd2 : (decRepr (j + 1)).data = (decRepr (k + 1)).data := by
      have := List.append_cancel_left hd
      exact List.cons.inj this |>.2
    have : decRepr (j + 1) = decRepr (k + 1) := by
      cases hjs : decRepr (j + 1) with
      | mk l =>
        cases hks : decRepr (k + 1) with
        | mk l' =>
          rw [hjs, hks] at hd2
          simp at hd2
          rw [hd2]
    have := decRepr_injective this
    omega

/-- The collision-resolution loop: starting from candidate index `k`, return
the first candidate not in `seen`, giving up (returning the current
candidate) when the fuel runs out. -/
def uniquifyAux (base : String) (seen : List String) : Nat → Nat → String
  | 0, k => candidate base k
  | fuel + 1, k =>
    if candidate base k ∈ seen then uniquifyAux base seen fuel (k + 1)
    else candidate base k

/-- The unique id assigned by `_fix_anchors`: the first candidate in the
sequence `base`, `base-1`, `base-2`, ... that is not already in `seen`. -/
def uniquify (base : String) (seen : List String) : String :=
  uniquifyAux base seen (seen.length + 1) 0

theorem uniquifyAux_shape (base : String) (seen : List String) (fuel k : Nat) :
    ∃ m, uniquifyAux base seen fuel k = candidate base m := by
  induction fuel generalizing k with
  | zero => exact ⟨k, rfl⟩
  | succ fuel ih =>
    rw [uniquifyAux]
    by_cases hmem : candidate base k ∈ seen
    · simp only [hmem, if_true]
      exact ih (k + 1)
    · simp only [hmem, if_false]
      exact ⟨k, rfl⟩

theorem uniquifyAux_fresh (base : String) (seen : List String) (fuel k : Nat)
    (h : ∃ j, j < fuel ∧ candidate base (k + j) ∉ seen) :
    uniquifyAux base seen fuel k ∉ seen := by
  induction fuel generalizing k with
  | zero =>
    obtain ⟨j, hj, _⟩ := h
    omega
  | succ fuel ih =>
    rw [uniquifyAux]
    by_cases hmem : candidate base k ∈ seen
    · rw [if_pos hmem]
      apply ih
      obtain ⟨j, hj, hfresh⟩ := h
      match j, hj with
      | 0, _ => exact absurd hmem hfresh
      | j' + 1, hj =>
        refine ⟨j', by omega, ?_⟩
        have : k + 1 + j' = k + (j' + 1) := by omega
        rw [this]
        exact hfresh
    · rw [if_neg hmem]
      exact hmem

theorem exists_fresh_candidate (base : String) (seen : List String) (k : Nat) :
    ∃ j, j < seen.length + 1 ∧ candidate base (k + j) ∉ seen := by
  by_contra hall
  push_neg at hall
  set l : List String := (List.range (seen.length + 1)).map (fun j => candidate base (k + j)) with hl
  have hnodup : l.Nodup := by
    refine List.Nodup.map ?_ (List.nodup_range _)
    intro a b hab
    have := candidate_injective base hab
    omega
  have hsub : l ⊆ seen := by
    intro x hx
    rw [hl, List.mem_map] at hx
    obtain ⟨j, hj, rfl⟩ := hx
    rw [List.mem_range] at hj
    exact hall j hj
  have := (List.subperm_of_subset hnodup hsub).length_le
  rw [hl, List.length_map, List.length_range] at this
  omega

/-- The id produced by the collision-resolution loop is fresh: it is not in
the seen set. -/
theorem uniquify_not_mem (base : String) (seen : List String) :
    uniquify base seen ∉ seen :=
  uniquifyAux_fresh base seen (seen.length + 1) 0 (exists_fresh_candidate base seen 0)

/-- The id produced by the collision-resolution loop is some candidate: the
base id itself, or the base id with a numeric suffix. -/
theorem uniquify_shape (base : String) (seen : List String) :
    ∃ m, uniquify base seen = candidate base m :=
  uniquifyAux_shape base seen (seen.length + 1) 0

/-! ### Headings in the page variant (`_fix_anchors`, generate.py lines 387-413)

A heading element of the parsed document, with the attributes the pass reads
and writes: its tag name, its optional `id` attribute, its class list, and
the hrefs of anchor children appended to it.  The pass iterates over all
`h1`/`h2`/`h3` elements in document order; for each one whose `id` is truthy
(present and non-empty) it assigns the uniquified slash-prefixed id, appends
a self-link anchor, and appends the `js-Bookmark` class.  The second loop,
`soup.find_all("h4", "h5")`, passes `"h5"` as BeautifulSoup's `attrs`
positional argument; a non-dict `attrs` is a CSS-class filter, so that loop
matches exactly the `h4` elements whose class list contains `"h5"`, and only
those lose their `id`. -/

structure Heading where
  tag : String
  id? : Option String
  classes : List String
  children : List String
deriving DecidableEq

/-- The `h1`-`h3` pass of `_fix_anchors` (page variant), threading the
`seen_ids` set through the document-ordered heading list; returns the
rewritten headings and the final seen set (the assigned ids, newest first,
on top of the initial set). -/
def fixHeadings (seen : List String) : List Heading → List Heading × List String
  | [] => ([], seen)
  | h :: hs =>
    if h.tag = "h1" ∨ h.tag = "h2" ∨ h.tag = "h3" then
      match h.id? with
      | some oid =>
        if oid = "" then
          let r := fixHeadings seen hs
          (h :: r.1, r.2)
        else
          let uid := uniquify ("/" ++ oid) seen
          let r := fixHeadings (uid :: seen) hs
          ({ h with id? := some uid,
                    classes := h.classes ++ ["js-Bookmark"],
                    children := h.children ++ ["#" ++ uid] } :: r.1, r.2)
      | none =>
        let r := fixHeadings seen hs
        (h :: r.1, r.2)
    else
      let r := fixHeadings seen hs
      (h :: r.1, r.2)

/-- The id-stripping loop of `_fix_anchors`: `soup.find_all("h4", "h5")`
selects the `h4` elements carrying CSS class `"h5"` (BeautifulSoup treats a
non-dict second positional argument as a class filter), and pops `id` from
each. -/
def stripH4ClassH5 (hs : List Heading) : List Heading :=
  hs.map fun h =>
    if h.tag = "h4" ∧ "h5" ∈ h.classes then { h with id? := none } else h

/-- The whole heading treatment of the page variant of `_fix_anchors`:
the `h1`-`h3` uniquification pass followed by the id-stripping loop. -/
def fixAnchorsHeadings (hs : List Heading) : List Heading :=
  stripH4ClassH5 (fixHeadings [] hs).1

theorem fixHeadings_snd_nodup (hs : List Heading) :
    ∀ seen : List String, seen.Nodup → ((fixHeadings seen hs).2).Nodup := by
  induction hs with
  | nil => intro seen h; exact h
  | cons h hs ih =>
    intro seen hnd
    rw [fixHeadings]
    by_cases htag : h.tag = "h1" ∨ h.tag = "h2" ∨ h.tag = "h3"
    · rw [if_pos htag]
      cases hid : h.id? with
      | none => exact ih seen hnd
      | some oid =>
        dsimp only
        by_cases hoid : oid = ""
        · rw [if_pos hoid]
          exact ih seen hnd
        · rw [if_neg hoid]
          exact ih _ (List.nodup_cons.mpr ⟨uniquify_not_mem _ _, hnd⟩)
    · rw [if_neg htag]
      exact ih seen hnd

/-- What the `h1`-`h3` pass does to one heading: a relevant heading (level
1-3 with a truthy id `oid`) gets some candidate of `"/" ++ oid` as its id, a
self-link anchor child, and the bookmark class; every other heading passes
through unchanged. -/
def headingRel (h h' : Heading) : Prop :=
  match h.id? with
  | some oid =>
    if (h.tag = "h1" ∨ h.tag = "h2" ∨ h.tag = "h3") ∧ oid ≠ "" then
      ∃ j, h'.tag = h.tag ∧
        h'.id? = some (candidate ("/" ++ oid) j) ∧
        h'.classes = h.classes ++ ["js-Bookmark"] ∧
        h'.children = h.children ++ ["#" ++ candidate ("/" ++ oid) j]
    else h' = h
  | none => h' = h

theorem fixHeadings_forall₂ (hs : List Heading) :
    ∀ seen : List String, List.Forall₂ headingRel hs (fixHeadings seen hs).1 := by
  induction hs with
  | nil => intro seen; rw [fixHeadings]; exact List.Forall₂.nil
  | cons h hs ih =>
    intro seen
    rw [fixHeadings]
    by_cases htag : h.tag = "h1" ∨ h.tag = "h2" ∨ h.tag = "h3"
    · rw [if_pos htag]
      cases hid : h.id? with
      | none =>
        refine List.Forall₂.cons ?_ (ih seen)
        rw [headingRel, hid]
      | some oid =>
        dsimp only
        by_cases hoid : oid = ""
        · rw [if_pos hoid]
          refine List.Forall₂.cons ?_ (ih seen)
          rw [headingRel, hid]
          dsimp only
          rw [if_neg (by simp [hoid])]
        · rw [if_neg hoid]
          refine List.Forall₂.cons ?_ (ih _)
          rw [headingRel, hid]
          dsimp only
          rw [if_pos ⟨htag, hoid⟩]
          obtain ⟨m, hm⟩ := uniquify_shape ("/" ++ oid) seen
          exact ⟨m, rfl, by rw [hm], rfl, by rw [hm]⟩
    · rw [if_neg htag]
      refine List.Forall₂.cons ?_ (ih seen)
      rw [headingRel]
      cases h.id? with
      | none => rfl
      | some oid =>
        dsimp only
        rw [if_neg (by simp [htag])]

/-! ### Python string primitives

The transformations below read strings with Python's `str` methods
(`strip`, `lower`, `startswith`, `split`, `in`).  These are modelled
directly on the character list of the Lean string, so that every definition
evaluates by kernel reduction; `pyLower` models `str.lower` on the ASCII
range (the only characters the compared literals contain). -/

def pyStrip (s : String) : String :=
  String.mk (((s.data.dropWhile Char.isWhitespace).reverse.dropWhile Char.isWhitespace).reverse)

def pyLower (s : String) : String :=
  String.mk (s.data.map Char.toLower)

def pyStartsWith (s p : String) : Bool :=
  p.data.isPrefixOf s.data

def pyEndsWith (s p : String) : Bool :=
  p.data.isSuffixOf s.data

def pyDrop (s : String) (n : Nat) : String :=
  String.mk (s.data.drop n)

/-- `str.split` with a one-character separator: `splitChar c l` cuts `l` at
every occurrence of `c`, keeping empty segments, like Python's
`"a;;b".split(";") == ["a", "", "b"]`. -/
def splitChar (c : Char) : List Char → List (List Char)
  | [] => [[]]
  | a :: rest =>
    if a = c then [] :: splitChar c rest
    else
      match splitChar c rest with
      | r :: rs => (a :: r) :: rs
      | [] => [[a]]

def pySplit (s : String) (c : Char) : List String :=
  (splitChar c s.data).map String.mk

def pyContains (s : String) (c : Char) : Bool :=
  s.data.contains c

/-! ### Interactive-example extraction (`_convert_playground_blocks`, generate.py lines 140-193)

The function scans every quote block of the document in order.  A quote
block whose stripped text starts (case-insensitively) with `playground:` is
a marker block: seeing one sets `has_playground = True` and folds its
`runtime` parameter into the running value, before the sibling check.  The
remainder of the marker text is parsed as `;`-separated `key=value` pairs
(pairs without `=` dropped, later keys winning).  If the next sibling is a
preformatted block with a code child, the conversion fires: the feed
variant replaces the marker with a plain caption paragraph and keeps the
code block; the page variant replaces marker and code block with a details
container.  Otherwise the marker block is left in place and scanning
continues.  Blocks are modelled at sibling level: `bq` a quote block with
its stripped text, `pre` a preformatted block with its optional code-child
text, `par`/`details` the replacement nodes, `other` anything else. -/

inductive PBlock where
  | bq (text : String)
  | pre (code : Option String)
  | par (text : String)
  | details (title button titleAttr code : String) (autorun : Bool)
  | other
deriving DecidableEq

/-- `text.lower().startswith("playground:")`, where `text` is the stripped
quote-block text. -/
def isMarkerText (t : String) : Bool :=
  pyStartsWith (pyLower (pyStrip t)) "playground:"

/-- `text[len("playground:"):].strip()`, where `text` is the stripped
quote-block text. -/
def markerRest (t : String) : String :=
  pyStrip (pyDrop (pyStrip t) 11)

/-- `dict(part.strip().split("=", 1) for part in s.split(";") if "=" in part)`,
kept as an ordered pair list; `pget` applies the last-wins lookup of the
Python dict together with the default of `dict.get`. -/
def parseParams (s : String) : List (String × String) :=
  ((pySplit s ';').filter (fun p => pyContains p '=')).map fun p =>
    let q := (pyStrip p).data
    (String.mk (q.takeWhile (fun c => c ≠ '=')),
      String.mk ((q.dropWhile (fun c => c ≠ '=')).drop 1))

def pget (ps : List (String × String)) (k d : String) : String :=
  match ps.reverse.find? (fun q => q.1 == k) with
  | some q => q.2
  | none => d

/-- `s.lower() in ("true", "1", "yes")`. -/
def truthy (s : String) : Bool :=
  let t := pyLower s
  t == "true" || t == "1" || t == "yes"

structure PGResult where
  blocks : List PBlock
  hasPlayground : Bool
  runtime : String
  conversions : Nat
deriving DecidableEq

/-- The recognized parameters of a marker block (generate.py lines 158-162),
each read from the parsed pair list with its documented default. -/
def pgRuntime (t rt : String) : String := pget (parseParams (markerRest t)) "runtime" rt

def pgTitle (t : String) : String := pget (parseParams (markerRest t)) "title" "Playground"

def pgButton (t : String) : String := pget (parseParams (markerRest t)) "button" "Run"

def pgTitleAttr (t : String) : String := pget (parseParams (markerRest t)) "title_attr" (pgButton t)

def pgAutorun (t : String) : Bool := truthy (pget (parseParams (markerRest t)) "autorun" "false")

/-- The scan loop of `_convert_playground_blocks`, threading the
`has_playground` flag, the running `runtime` value, and a count of the
conversions that actually fired.  The first two list patterns cover a quote
block immediately followed by a preformatted block with a code child (the
convertible configuration); any other quote block is handled by the third
pattern, where a marker still raises the flag and folds `runtime` but the
block is left in place. -/
def convertPGAux (isFeed : Bool) : List PBlock → Bool → String → Nat → PGResult
  | [], hp, rt, cnt => ⟨[], hp, rt, cnt⟩
  | PBlock.bq t :: PBlock.pre (some code) :: rest2, hp, rt, cnt =>
    if isMarkerText t then
      if isFeed then
        let r := convertPGAux isFeed rest2 true (pgRuntime t rt) (cnt + 1)
        ⟨PBlock.par (pgTitle t) :: PBlock.pre (some code) :: r.blocks,
          r.hasPlayground, r.runtime, r.conversions⟩
      else
        let r := convertPGAux isFeed rest2 true (pgRuntime t rt) (cnt + 1)
        ⟨PBlock.details (pgTitle t) (pgButton t) (pgTitleAttr t) code (pgAutorun t) :: r.blocks,
          r.hasPlayground, r.runtime, r.conversions⟩
    else
      let r := convertPGAux isFeed (PBlock.pre (some code) :: rest2) hp rt cnt
      ⟨PBlock.bq t :: r.blocks, r.hasPlayground, r.runtime, r.conversions⟩
  | PBlock.bq t :: rest, hp, rt, cnt =>
    if isMarkerText t then
      let r := convertPGAux isFeed rest true (pgRuntime t rt) cnt
      ⟨PBlock.bq t :: r.blocks, r.hasPlayground, r.runtime, r.conversions⟩
    else
      let r := convertPGAux isFeed rest hp rt cnt
      ⟨PBlock.bq t :: r.blocks, r.hasPlayground, r.runtime, r.conversions⟩
  | b :: rest, hp, rt, cnt =>
    let r := convertPGAux isFeed rest hp rt cnt
    ⟨b :: r.blocks, r.hasPlayground, r.runtime, r.conversions⟩

/-- `_convert_playground_blocks` on a document, starting from
`has_playground = False` and `runtime = ""`. -/
def convertPlaygroundBlocks (isFeed : Bool) (blocks : List PBlock) : PGResult :=
  convertPGAux isFeed blocks false "" 0

def isMarkerBlock : PBlock → Bool
  | PBlock.bq t => isMarkerText t
  | _ => false

/-- Whether two adjacent siblings form a convertible configuration: a
marker quote block immediately followed by a preformatted block with a code
child. -/
def convPairHead : PBlock → PBlock → Bool
  | PBlock.bq t, PBlock.pre (some _) => isMarkerText t
  | _, _ => false

/-- A convertible configuration exists somewhere in the document. -/
def hasConvertiblePair : List PBlock → Bool
  | b :: b2 :: rest => convPairHead b b2 || hasConvertiblePair (b2 :: rest)
  | _ => false

/-- The running `runtime` value after the whole scan: every marker block
seen (converted or not) folds in its `runtime` parameter, later markers
winning. -/
def runtimeFold (rt : String) : List PBlock → String
  | [] => rt
  | PBlock.bq t :: rest =>
    if isMarkerText t then runtimeFold (pgRuntime t rt) rest
    else runtimeFold rt rest
  | _ :: rest => runtimeFold rt rest

theorem convertPGAux_hasPlayground (isFeed hp : Bool) (rt : String) (cnt : Nat)
    (blocks : List PBlock) :
    (convertPGAux isFeed blocks hp rt cnt).hasPlayground
      = (hp || blocks.any isMarkerBlock) := by
  induction blocks, hp, rt, cnt using convertPGAux.induct isFeed with
  | case1 hp rt cnt => simp [convertPGAux]
  | case2 t code rest2 hp rt cnt hm hfeed ih =>
    subst hfeed
    simp [convertPGAux, hm, ih, isMarkerBlock]
  | case3 t code rest2 hp rt cnt hm hfeed ih =>
    have hf : isFeed = false := by simpa using hfeed
    subst hf
    simp [convertPGAux, hm, ih, isMarkerBlock]
  | case4 t code rest2 hp rt cnt hm ih =>
    simp [convertPGAux, hm, isMarkerBlock] at ih ⊢
    exact ih
  | case5 t rest hp rt cnt hx hm ih =>
    simp [convertPGAux, hm, ih, isMarkerBlock]
  | case6 t rest hp rt cnt hx hm ih =>
    simp [convertPGAux, hm, ih, isMarkerBlock]
  | case7 b rest hp rt cnt hx1 hx2 ih =>
    cases b with
    | bq t => exact absurd rfl (hx2 t)
    | pre c => simp [convertPGAux, ih, isMarkerBlock]
    | par s => simp [convertPGAux, ih, isMarkerBlock]
    | details a b2 c d e => simp [convertPGAux, ih, isMarkerBlock]
    | other => simp [convertPGAux, ih, isMarkerBlock]

theorem convertPGAux_runtime (isFeed hp : Bool) (rt : String) (cnt : Nat)
    (blocks : List PBlock) :
    (convertPGAux isFeed blocks hp rt cnt).runtime = runtimeFold rt blocks := by
  induction blocks, hp, rt, cnt using convertPGAux.induct isFeed with
  | case1 hp rt cnt => simp [convertPGAux, runtimeFold]
  | case2 t code rest2 hp rt cnt hm hfeed ih =>
    subst hfeed
    simp [convertPGAux, hm, ih, runtimeFold]
  | case3 t code rest2 hp rt cnt hm hfeed ih =>
    have hf : isFeed = false := by simpa using hfeed
    subst hf
    simp [convertPGAux, hm, ih, runtimeFold]
  | case4 t code rest2 hp rt cnt hm ih =>
    simp [convertPGAux, hm, runtimeFold] at ih ⊢
    exact ih
  | case5 t rest hp rt cnt hx hm ih =>
    simp [convertPGAux, hm, ih, runtimeFold]
  | case6 t rest hp rt cnt hx hm ih =>
    simp [convertPGAux, hm, ih, runtimeFold]
  | case7 b rest hp rt cnt hx1 hx2 ih =>
    cases b with
    | bq t => exact absurd rfl (hx2 t)
    | pre c => simp [convertPGAux, ih, runtimeFold]
    | par s => simp [convertPGAux, ih, runtimeFold]
    | details a b2 c d e => simp [convertPGAux, ih, runtimeFold]
    | other => simp [convertPGAux, ih, runtimeFold]

theorem convertPGAux_no_pair (isFeed hp : Bool) (rt : String) (cnt : Nat)
    (blocks : List PBlock) (h : hasConvertiblePair blocks = false) :
    (convertPGAux isFeed blocks hp rt cnt).blocks = blocks
      ∧ (convertPGAux isFeed blocks hp rt cnt).conversions = cnt := by
  induction blocks, hp, rt, cnt using convertPGAux.induct isFeed with
  | case1 hp rt cnt => simp [convertPGAux]
  | case2 t code rest2 hp rt cnt hm hfeed ih =>
    simp [hasConvertiblePair, convPairHead, hm] at h
  | case3 t code rest2 hp rt cnt hm hfeed ih =>
    simp [hasConvertiblePair, convPairHead, hm] at h
  | case4 t code rest2 hp rt cnt hm ih =>
    simp [hasConvertiblePair, convPairHead, hm] at h
    have h2 := ih h
    simp [convertPGAux, hm] at h2 ⊢
    exact h2
  | case5 t rest hp rt cnt hx hm ih =>
    have hrest : hasConvertiblePair rest = false := by
      cases rest with
      | nil => simp [hasConvertiblePair]
      | cons b2 rest2 =>
        simp [hasConvertiblePair] at h
        exact h.2
    have := ih hrest
    simp [convertPGAux, hm, this.1, this.2]
  | case6 t rest hp rt cnt hx hm ih =>
    have hrest : hasConvertiblePair rest = false := by
      cases rest with
      | nil => simp [hasConvertiblePair]
      | cons b2 rest2 =>
        simp [hasConvertiblePair] at h
        exact h.2
    have := ih hrest
    simp [convertPGAux, hm, this.1, this.2]
  | case7 b rest hp rt cnt hx1 hx2 ih =>
    have hrest : hasConvertiblePair rest = false := by
      cases rest with
      | nil => simp [hasConvertiblePair]
      | cons b2 rest2 =>
        simp [hasConvertiblePair] at h
        exact h.2
    have := ih hrest
    cases b with
    | bq t => exact absurd rfl (hx2 t)
    | pre c => simp [convertPGAux, this.1, this.2]
    | par s => simp [convertPGAux, this.1, this.2]
    | details a b2 c d e => simp [convertPGAux, this.1, this.2]
    | other => simp [convertPGAux, this.1, this.2]

/-! ### Nested-quote handling (`_cleanup_blockquotes`, generate.py lines 196-205)

`_cleanup_blockquotes` walks all quote blocks; a quote block whose parent is
also a quote block replaces its parent (`bq.parent.replace_with(bq)`).  In
the feed variant that is all; in the page variant the promoted quote block
additionally gets its class attribute set to `"note"`.  The model covers one
level of direct nesting (`quote` with a child list, a nested `quote` among
the children); the per-variant difference is the point at issue. -/

inductive BNode where
  | quote (classes : List String) (children : List BNode)
  | elem (tag : String)

def isQuote : BNode → Bool
  | BNode.quote _ _ => true
  | _ => false

/-- The effect of `_cleanup_blockquotes` on one top-level node: a quote
block containing a directly nested quote block is replaced by that nested
block, which in the page variant (`is_feed = False`) also gets its class
attribute set to `"note"`. -/
def cleanupTop (isFeed : Bool) : BNode → BNode
  | BNode.quote cls children =>
    match children.find? isQuote with
    | some (BNode.quote icls ich) =>
      if isFeed then BNode.quote icls ich else BNode.quote ["note"] ich
    | _ => BNode.quote cls children
  | b => b

def cleanupBlockquotes (isFeed : Bool) (doc : List BNode) : List BNode :=
  doc.map (cleanupTop isFeed)

/-! ### Path and URL helpers (`os.path`, `urllib.parse`)

`os.path.basename`, `os.path.dirname` and `os.path.splitext` modelled on
POSIX path strings, and the `hostname`/`path` components of
`urllib.parse.urlparse` modelled for the URL shapes the pipeline
distinguishes: a network location is present exactly when the URL starts
with `//` or contains `://`; it extends to the next `/` and the hostname is
its lowercase form (userinfo and ports do not occur in this corpus). -/

def basename (p : String) : String :=
  String.mk ((splitChar '/' p.data).getLastD [])

def dirname (p : String) : String :=
  match splitChar '/' p.data with
  | [] => ""
  | [_] => ""
  | parts =>
    let head := List.intercalate ['/'] parts.dropLast
    if head.isEmpty then "/" else String.mk head

/-- `os.path.splitext(p)[0]`: the path without its extension; an extension
is a final dot-run in the basename with at least one non-dot character
before it. -/
def splitextRoot (p : String) : String :=
  let b := (basename p).data
  let rev := b.reverse
  let extRev := rev.takeWhile (fun c => c ≠ '.')
  if extRev.length = rev.length then p
  else if (rev.drop (extRev.length + 1)).any (fun c => c ≠ '.') then
    String.mk (p.data.take (p.data.length - (extRev.length + 1)))
  else p

/-- `os.path.splitext(p)[1]` for a plain filename: the extension including
its dot, or the empty string. -/
def extOf (b : List Char) : String :=
  let rev := b.reverse
  let extRev := rev.takeWhile (fun c => c ≠ '.')
  if extRev.length = rev.length then ""
  else if (rev.drop (extRev.length + 1)).any (fun c => c ≠ '.') then
    String.mk ('.' :: extRev.reverse)
  else ""

/-- First index at which `pat` occurs in the list, if any. -/
def findSub (pat : List Char) : List Char → Option Nat
  | [] => if pat.isEmpty then some 0 else none
  | a :: rest =>
    if pat.isPrefixOf (a :: rest) then some 0
    else (findSub pat rest).map (fun n => n + 1)

def hostnameOf (href : String) : Option String :=
  let d := href.data
  let netloc? : Option (List Char) :=
    if ['/', '/'].isPrefixOf d then some (d.drop 2)
    else
      match findSub [':', '/', '/'] d with
      | some i => some (d.drop (i + 3))
      | none => none
  match netloc? with
  | none => none
  | some r =>
    let host := (r.takeWhile (fun c => c ≠ '/')).map Char.toLower
    if host.isEmpty then none else some (String.mk host)

def urlPath (href : String) : String :=
  let d := href.data
  if ['/', '/'].isPrefixOf d then String.mk ((d.drop 2).dropWhile (fun c => c ≠ '/'))
  else
    match findSub [':', '/', '/'] d with
    | some i => String.mk ((d.drop (i + 3)).dropWhile (fun c => c ≠ '/'))
    | none => href

/-! ### Image classification and rewriting
(`_process_body_images` lines 238-263, `_embed_iframe_from_path` lines
208-235, `_process_feed_images` lines 266-298)

Each image is modelled with its `src` and the shape of its ancestry: parent
paragraph, parent link (with the link's href and whether the grandparent is
a paragraph), or anything else.  The width-class pattern of line 253 is the
raw Python string `r"-(\\d{1,3})$"`, in which `\\d` is two literal
backslash characters: compiled as a regular expression it matches a hyphen,
then a literal backslash followed by one to three letter `d` characters at
the end of the string, the group being the backslash and the `d` run.
`widthSuffix` embeds that compiled pattern. -/

def widthSuffix (s : String) : Option String :=
  if pyEndsWith s "-\\ddd" then some "\\ddd"
  else if pyEndsWith s "-\\dd" then some "\\dd"
  else if pyEndsWith s "-\\d" then some "\\d"
  else none

/-- Whether `_embed_iframe_from_path` actually replaces the paragraph: the
slash-stripped path must have exactly two segments and the second must have
extension `.html`. -/
def embedSucceeds (path : String) : Bool :=
  let stripped := ((path.data.dropWhile (fun c => c = '/')).reverse.dropWhile (fun c => c = '/')).reverse
  match splitChar '/' stripped with
  | [_, filename] => extOf filename == ".html"
  | _ => false

inductive ImgParent where
  | para
  | link (href : String) (grandIsPara : Bool)
  | plain
deriving DecidableEq

structure ImgCtx where
  src : String
  parent : ImgParent
deriving DecidableEq

/-- The attribute outcome of `_process_body_images` for one image: the
final `src`, the class written to the image (width class), to its parent
(paragraph centering), and to its grandparent (link-in-paragraph
centering), the final href of a parent link, and whether the iframe
replacement of `_embed_iframe_from_path` fired (in which case the paragraph
holding the image leaves the document). -/
structure BodyImgResult where
  src : String
  widthClass : Option String
  parentClass : Option String
  grandClass : Option String
  href : Option String
  iframeEmbed : Bool
deriving DecidableEq

def processBodyImg (domain : String) (c : ImgCtx) : BodyImgResult :=
  let filename := basename c.src
  let dir := dirname c.src
  let newSrc := "/images/" ++ filename
  match c.parent with
  | ImgParent.para =>
    { src := newSrc, widthClass := none, parentClass := some "text-center",
      grandClass := none, href := none, iframeEmbed := false }
  | ImgParent.link href grandIsPara =>
    let host := hostnameOf href
    if grandIsPara ∧ dir = "./images" ∧ host = none then
      { src := newSrc,
        widthClass := (widthSuffix (splitextRoot c.src)).map (fun g => "w-" ++ g),
        parentClass := none, grandClass := some "text-center",
        href := some newSrc, iframeEmbed := false }
    else if grandIsPara ∧ dir = "." ∧ host = some domain then
      { src := newSrc, widthClass := none, parentClass := none, grandClass := none,
        href := some newSrc, iframeEmbed := embedSucceeds (urlPath href) }
    else
      { src := newSrc, widthClass := none, parentClass := none, grandClass := none,
        href := some newSrc, iframeEmbed := false }
  | ImgParent.plain =>
    { src := newSrc, widthClass := none, parentClass := none, grandClass := none,
      href := none, iframeEmbed := false }

/-- The attribute outcome of `_process_feed_images` for one image: both the
placeholder branch (`dirname == "."`) and the ordinary branch rewrite `src`
to the absolute domain URL; only the ordinary branch goes on to the media
manifest (whose dimension probing is file system access outside the
model). -/
structure FeedImgResult where
  src : String
  manifestEligible : Bool
deriving DecidableEq

def processFeedImg (domain : String) (src : String) : FeedImgResult :=
  let filename := basename src
  { src := "https://" ++ domain ++ "/images/" ++ filename,
    manifestEligible := dirname src != "." }

/-! ### Frontmatter and timestamps (`entry_from_markdown`, generate.py lines 303-373)

The metadata mapping attached by the markdown parser is modelled as a
key/value list.  Lines 317-322 read the required keys `title`,
`description`, `published`, `updated`, `tags` with `metadata[...]` (a
missing key raises) and `cover_title` with `.get` (optional, defaulting to
the title); the two timestamps go through
`datetime.datetime.fromisoformat`, which raises on any string that is not
strict ISO-8601.  `parseIso` models the core of `fromisoformat`:
`YYYY-MM-DD`, optionally followed by a single separator character and
`HH:MM` or `HH:MM:SS`, with calendar-aware range validation (fractional
seconds and timezone offsets do not occur in this corpus and are treated
as parse failures). -/

structure DateTime where
  year : Nat
  month : Nat
  day : Nat
  hour : Nat
  minute : Nat
  second : Nat
deriving DecidableEq

def isLeapYear (y : Nat) : Bool :=
  (y % 4 == 0 && y % 100 != 0) || y % 400 == 0

def daysInMonth (y m : Nat) : Nat :=
  if m == 2 then (if isLeapYear y then 29 else 28)
  else if m == 4 || m == 6 || m == 9 || m == 11 then 30
  else 31

def parseIsoDate (s : String) : Option (Nat × Nat × Nat) :=
  match splitChar '-' s.data with
  | [y, m, d] =>
    if y.length == 4 && y.all Char.isDigit && m.length == 2 && m.all Char.isDigit
        && d.length == 2 && d.all Char.isDigit then
      let yn := listVal y
      let mn := listVal m
      let dn := listVal d
      if 1 ≤ mn && mn ≤ 12 && 1 ≤ dn && dn ≤ daysInMonth yn mn then some (yn, mn, dn)
      else none
    else none
  | _ => none

def parseIsoTime (s : String) : Option (Nat × Nat × Nat) :=
  match splitChar ':' s.data with
  | [h, m] =>
    if h.length == 2 && h.all Char.isDigit && m.length == 2 && m.all Char.isDigit
        && listVal h ≤ 23 && listVal m ≤ 59 then some (listVal h, listVal m, 0)
    else none
  | [h, m, sec] =>
    if h.length == 2 && h.all Char.isDigit && m.length == 2 && m.all Char.isDigit
        && sec.length == 2 && sec.all Char.isDigit
        && listVal h ≤ 23 && listVal m ≤ 59 && listVal sec ≤ 59 then
      some (listVal h, listVal m, listVal sec)
    else none
  | _ => none

def parseIso (s : String) : Option DateTime :=
  let d := s.data
  if d.length = 10 then
    (parseIsoDate s).map (fun t => ⟨t.1, t.2.1, t.2.2, 0, 0, 0⟩)
  else if 10 < d.length then
    match parseIsoDate (String.mk (d.take 10)), parseIsoTime (String.mk (d.drop 11)) with
    | some dt, some tm => some ⟨dt.1, dt.2.1, dt.2.2, tm.1, tm.2.1, tm.2.2⟩
    | _, _ => none
  else none

inductive IngestError where
  | missingField (key : String)
  | dateFormat (value : String)
  | missingBlockquote
deriving DecidableEq

structure FrontMeta where
  title : String
  cover_title : String
  short_description : String
  published : DateTime
  updated : DateTime
  tags : List String
deriving DecidableEq

def mlookup (md : List (String × String)) (k : String) : Option String :=
  (md.find? (fun p => p.1 == k)).map (fun p => p.2)

/-- `[tag.strip() for tag in metadata["tags"].split(",")]` (line 322). -/
def splitTags (s : String) : List String :=
  (pySplit s ',').map pyStrip

def requiredKeys : List String :=
  ["title", "description", "published", "updated", "tags"]

/-- The frontmatter reads of `entry_from_markdown` lines 317-322, in source
order, with each failure mapped to the error class it raises: a missing
required key to `missingField` (a `KeyError` in Python), an unparseable
timestamp to `dateFormat` (a `ValueError` from `fromisoformat`). -/
def parseFrontmatter (md : List (String × String)) : Except IngestError FrontMeta :=
  match mlookup md "title" with
  | none => Except.error (IngestError.missingField "title")
  | some title =>
    let cover := (mlookup md "cover_title").getD title
    match mlookup md "description" with
    | none => Except.error (IngestError.missingField "description")
    | some desc =>
      match mlookup md "published" with
      | none => Except.error (IngestError.missingField "published")
      | some pubs =>
        match parseIso pubs with
        | none => Except.error (IngestError.dateFormat pubs)
        | some pub =>
          match mlookup md "updated" with
          | none => Except.error (IngestError.missingField "updated")
          | some upds =>
            match parseIso upds with
            | none => Except.error (IngestError.dateFormat upds)
            | some upd =>
              match mlookup md "tags" with
              | none => Except.error (IngestError.missingField "tags")
              | some tagsStr =>
                Except.ok ⟨title, cover, desc, pub, upd, splitTags tagsStr⟩

/-! ### The Entry record and its JSON form (`Entry`, generate.py lines 42-77)

The model keeps the fields that the verified operations read: the identity
and listing fields serialized by `to_json`, the two transformed bodies, and
the tag list used for grouping.  `to_json` emits the listed fields
unconditionally and adds a `body` field holding `body_feed` exactly when
`include_body` is set. -/

structure ImageMeta where
  filename : String
  title : String
  width : Nat
  height : Nat
  mimetype : String
  filesize : Nat
deriving DecidableEq

structure Entry where
  slug : String
  title : String
  description : String
  images : List ImageMeta
  published : DateTime
  updated : DateTime
  tags : List String
  link : String
  body : String
  body_feed : String
deriving DecidableEq

/-- Zero-padded decimal fields of `datetime.isoformat`. -/
def pad2 (n : Nat) : String :=
  if n < 10 then "0" ++ decRepr n else decRepr n

def pad4 (n : Nat) : String :=
  String.mk (List.replicate (4 - (decRepr n).length) '0') ++ decRepr n

def DateTime.isoformat (d : DateTime) : String :=
  pad4 d.year ++ "-" ++ pad2 d.month ++ "-" ++ pad2 d.day ++ "T"
    ++ pad2 d.hour ++ ":" ++ pad2 d.minute ++ ":" ++ pad2 d.second

structure EntryJson where
  slug : String
  title : String
  description : String
  images : List ImageMeta
  published : String
  updated : String
  tags : List String
  link : String
  body : Option String
deriving DecidableEq

/-- `Entry.to_json` (lines 62-77). -/
def Entry.toJson (e : Entry) (includeBody : Bool) : EntryJson :=
  { slug := e.slug, title := e.title, description := e.description,
    images := e.images, published := e.published.isoformat,
    updated := e.updated.isoformat, tags := e.tags, link := e.link,
    body := if includeBody then some e.body_feed else none }

/-! ### Pagination (`Generator.run`, generate.py lines 504-513 and 548-565)

The chunking loop
`for i, entry in enumerate(self.entries): if i % P == 0: pages.append([]); pages[-1].append(entry)`
is embedded as a fold (`buildPagesAux`); `chunksOf` is the take/drop
formulation the lemmas below prove it equal to, for any positive page size.
`morePage` and the index output mirror the `more`/`page` template arguments
of lines 550-565. -/

def appendToLast {α : Type} : List (List α) → α → List (List α)
  | [], _ => []
  | [l], a => [l ++ [a]]
  | l :: ls, a => l :: appendToLast ls a

def buildPagesAux {α : Type} (P : Nat) : List α → Nat → List (List α) → List (List α)
  | [], _, pages => pages
  | e :: rest, i, pages =>
    let pages1 := if i % P == 0 then pages ++ [[]] else pages
    buildPagesAux P rest (i + 1) (appendToLast pages1 e)

def buildPages {α : Type} (es : List α) (P : Nat) : List (List α) :=
  buildPagesAux P es 0 []

def chunksOfAux {α : Type} (P : Nat) : Nat → List α → List (List α)
  | 0, _ => []
  | _ + 1, [] => []
  | fuel + 1, e :: es => ((e :: es).take P) :: chunksOfAux P fuel ((e :: es).drop P)

def chunksOf {α : Type} (es : List α) (P : Nat) : List (List α) :=
  chunksOfAux P es.length es

def pagesLen (es : List Entry) (P : Nat) : Nat :=
  (buildPages es P).length

/-- The `more` argument of the numbered listing pages:
`page_num != pages_len` (line 553). -/
def morePage (es : List Entry) (P pageNum : Nat) : Bool :=
  pageNum != pagesLen es P

/-- The entry list of the index output: `pages[0] if pages_len > 0 else []`
(line 513). -/
def indexEntries (es : List Entry) (P : Nat) : List Entry :=
  if 0 < pagesLen es P then (buildPages es P).headD [] else []

/-- The `more` argument of the index output: `pages_len > 1` (line 561). -/
def moreIndex (es : List Entry) (P : Nat) : Bool :=
  decide (1 < pagesLen es P)

/-! ### Tag grouping (`Generator.run`, generate.py lines 496-502)

`entries_by_tag` is built in one forward pass over the corpus, appending
the entry once per occurrence of each tag in its tag list; the insertion
order of keys and of each member list is the corpus order. -/

def tagLookup (m : List (String × List Entry)) (t : String) : List Entry :=
  ((m.find? (fun p => p.1 == t)).map (fun p => p.2)).getD []

def addTag (m : List (String × List Entry)) (t : String) (e : Entry) :
    List (String × List Entry) :=
  if m.any (fun p => p.1 == t) then
    m.map (fun p => if p.1 == t then (p.1, p.2 ++ [e]) else p)
  else m ++ [(t, [e])]

def buildTags (es : List Entry) : List (String × List Entry) :=
  es.foldl (fun m e => e.tags.foldl (fun m2 t => addTag m2 t e) m) []

/-- The member list a tag receives from a corpus: one copy of each entry
per occurrence of the tag in that entry's tag list, in corpus order. -/
def tagOccurrences (t : String) : List Entry → List Entry
  | [] => []
  | e :: rest => List.replicate (e.tags.count t) e ++ tagOccurrences t rest

/-! ### The JSON side outputs of `Generator.run` (lines 456-482, 525-576)

`_generate` writes, next to each rendered page, a JSON document holding
`entry.to_json(include_body=include_json_body)` for its entry list (when
JSON emission is enabled; file writing itself is outside the model).  The
call sites: per-entry outputs pass `include_json_body=True` (line 541);
numbered listing pages, the index output and tag pages use the default
`False`. -/

inductive OutKind where
  | entryPage
  | listingPage
  | indexPage
  | tagPage
deriving DecidableEq

structure JsonOut where
  kind : OutKind
  name : String
  entries : List Entry
  includeBody : Bool
deriving DecidableEq

def runJsonOutputs (es : List Entry) (P : Nat) : List JsonOut :=
  (es.map fun e => ⟨OutKind.entryPage, e.slug, [e], true⟩)
    ++ ((buildPages es P).enum.map fun pr =>
          ⟨OutKind.listingPage, decRepr (pr.1 + 1), pr.2, false⟩)
    ++ [⟨OutKind.indexPage, "index", indexEntries es P, false⟩]
    ++ ((buildTags es).map fun pr => ⟨OutKind.tagPage, pr.1, pr.2, false⟩)

theorem appendToLast_snoc {α : Type} :
    ∀ (l : List (List α)) (x : List α) (a : α),
      appendToLast (l ++ [x]) a = l ++ [x ++ [a]]
  | [], _, _ => rfl
  | [_], _, _ => rfl
  | y :: z :: zs, x, a => by
    have ih := appendToLast_snoc (z :: zs) x a
    show y :: appendToLast ((z :: zs) ++ [x]) a = y :: z :: (zs ++ [x ++ [a]])
    rw [ih]
    simp

theorem appendToLast_cons_of_ne {α : Type} (x : List α) (l : List (List α)) (a : α)
    (h : l ≠ []) : appendToLast (x :: l) a = x :: appendToLast l a := by
  cases l with
  | nil => exact absurd rfl h
  | cons y ys => rfl

theorem chunksOfAux_congr {α : Type} (P : Nat) (hP : 0 < P) :
    ∀ (fuel fuel' : Nat) (es : List α), es.length ≤ fuel → es.length ≤ fuel' →
      chunksOfAux P fuel es = chunksOfAux P fuel' es := by
  intro fuel
  induction fuel with
  | zero =>
    intro fuel' es h h'
    have : es = [] := List.length_eq_zero.mp (Nat.le_zero.mp h)
    subst this
    cases fuel' with
    | zero => rfl
    | succ f => rfl
  | succ fuel ih =>
    intro fuel' es h h'
    cases es with
    | nil =>
      cases fuel' with
      | zero => rfl
      | succ f => rfl
    | cons e es2 =>
      cases fuel' with
      | zero => simp at h'
      | succ f =>
        rw [chunksOfAux, chunksOfAux]
        have hd : ((e :: es2).drop P).length ≤ fuel := by
          simp only [List.length_drop, List.length_cons]
          simp only [List.length_cons] at h
          omega
        have hd' : ((e :: es2).drop P).length ≤ f := by
          simp only [List.length_drop, List.length_cons]
          simp only [List.length_cons] at h'
          omega
        rw [ih f ((e :: es2).drop P) hd hd']

theorem chunksOf_ne_nil {α : Type} (P : Nat) (es : List α) (h : es ≠ []) :
    chunksOf es P ≠ [] := by
  cases es with
  | nil => exact absurd rfl h
  | cons e es2 =>
    rw [chunksOf, List.length_cons, chunksOfAux]
    exact List.cons_ne_nil _ _

theorem chunksOf_nil {α : Type} (P : Nat) : chunksOf ([] : List α) P = [] := rfl

theorem chunksOf_cons {α : Type} (P : Nat) (hP : 0 < P) (e : α) (es2 : List α) :
    chunksOf (e :: es2) P = (e :: es2).take P :: chunksOf ((e :: es2).drop P) P := by
  rw [chunksOf, List.length_cons, chunksOfAux]
  congr 1
  rw [chunksOf]
  apply chunksOfAux_congr P hP
  · simp only [List.length_drop, List.length_cons]
    omega
  · exact Nat.le_refl _

theorem chunksOf_singleton {α : Type} (P : Nat) (hP : 0 < P) (a : α) :
    chunksOf [a] P = [[a]] := by
  rw [chunksOf_cons P hP]
  have ht : [a].take P = [a] := List.take_of_length_le (by simp; omega)
  have hd : [a].drop P = [] := List.drop_eq_nil_of_le (by simp; omega)
  rw [ht, hd, chunksOf_nil]

theorem chunksOf_snoc {α : Type} (P : Nat) (hP : 0 < P) :
    ∀ (n : Nat) (es : List α) (a : α), es.length ≤ n →
      chunksOf (es ++ [a]) P =
        if es.length % P = 0 then chunksOf es P ++ [[a]]
        else appendToLast (chunksOf es P) a := by
  intro n
  induction n with
  | zero =>
    intro es a h
    have : es = [] := List.length_eq_zero.mp (Nat.le_zero.mp h)
    subst this
    simp [chunksOf_nil, chunksOf_singleton P hP]
  | succ n ih =>
    intro es a h
    cases es with
    | nil => simp [chunksOf_nil, chunksOf_singleton P hP]
    | cons e es2 =>
      have hconsL : (e :: es2) ++ [a] = e :: (es2 ++ [a]) := by simp
      have hL : (e :: es2).length = es2.length + 1 := by simp
      rcases Nat.lt_trichotomy (e :: es2).length P with hlt | heq | hgt
      · have hmodne : ¬ (e :: es2).length % P = 0 := by
          rw [Nat.mod_eq_of_lt hlt, hL]
          simp
        rw [if_neg hmodne, hconsL, chunksOf_cons P hP, chunksOf_cons P hP]
        have ht1 : (e :: (es2 ++ [a])).take P = e :: (es2 ++ [a]) :=
          List.take_of_length_le (by simp only [List.length_cons, List.length_append,
            List.length_singleton, List.length_nil] ; rw [hL] at hlt; omega)
        have hd1 : (e :: (es2 ++ [a])).drop P = [] :=
          List.drop_eq_nil_of_le (by simp only [List.length_cons, List.length_append,
            List.length_singleton, List.length_nil] ; rw [hL] at hlt; omega)
        have ht2 : (e :: es2).take P = e :: es2 :=
          List.take_of_length_le (le_of_lt hlt)
        have hd2 : (e :: es2).drop P = [] :=
          List.drop_eq_nil_of_le (le_of_lt hlt)
        rw [ht1, hd1, ht2, hd2, chunksOf_nil]
        simp [appendToLast]
      · have hmod0 : (e :: es2).length % P = 0 := by
          rw [heq]
          exact Nat.mod_self P
        rw [if_pos hmod0, hconsL, chunksOf_cons P hP, chunksOf_cons P hP]
        have hPle : P ≤ (e :: es2).length := le_of_eq heq.symm
        have ht1 : (e :: (es2 ++ [a])).take P = e :: es2 := by
          rw [← hconsL, List.take_append_of_le_length hPle,
            List.take_of_length_le (le_of_eq heq)]
        have hd1 : (e :: (es2 ++ [a])).drop P = [a] := by
          rw [← hconsL, List.drop_append_of_le_length hPle,
            List.drop_eq_nil_of_le (le_of_eq heq), List.nil_append]
        have ht2 : (e :: es2).take P = e :: es2 :=
          List.take_of_length_le (le_of_eq heq)
        have hd2 : (e :: es2).drop P = [] :=
          List.drop_eq_nil_of_le (le_of_eq heq)
        rw [ht1, hd1, ht2, hd2, chunksOf_nil, chunksOf_singleton P hP]
        rfl
      · have hPle : P ≤ (e :: es2).length := le_of_lt hgt
        have hLHS : chunksOf ((e :: es2) ++ [a]) P =
            (e :: es2).take P :: chunksOf ((e :: es2).drop P ++ [a]) P := by
          rw [hconsL, chunksOf_cons P hP, ← hconsL,
            List.take_append_of_le_length hPle, List.drop_append_of_le_length hPle]
        have hRHS : chunksOf (e :: es2) P =
            (e :: es2).take P :: chunksOf ((e :: es2).drop P) P :=
          chunksOf_cons P hP e es2
        have hdroplen : ((e :: es2).drop P).length ≤ n := by
          simp only [List.length_drop]
          rw [hL] at h ⊢
          omega
        have hih := ih ((e :: es2).drop P) a hdroplen
        have hmodeq : ((e :: es2).drop P).length % P = (e :: es2).length % P := by
          simp only [List.length_drop]
          conv_rhs => rw [Nat.mod_eq_sub_mod hPle]
        rw [hLHS, hih, hmodeq]
        by_cases hz : (e :: es2).length % P = 0
        · rw [if_pos hz, if_pos hz, hRHS]
          rfl
        · rw [if_neg hz, if_neg hz, hRHS]
          rw [appendToLast_cons_of_ne]
          apply chunksOf_ne_nil
          rw [← List.length_pos, List.length_drop]
          rw [hL] at hgt ⊢
          omega


theorem buildPagesAux_chunksOf {α : Type} (P : Nat) (hP : 0 < P) :
    ∀ (rest done : List α),
      buildPagesAux P rest done.length (chunksOf done P) = chunksOf (done ++ rest) P := by
  intro rest
  induction rest with
  | nil =>
    intro done
    rw [buildPagesAux, List.append_nil]
  | cons e rest2 ih =>
    intro done
    rw [buildPagesAux]
    have hstep : appendToLast (if done.length % P == 0 then chunksOf done P ++ [[]]
        else chunksOf done P) e = chunksOf (done ++ [e]) P := by
      by_cases hz : done.length % P = 0
      · rw [if_pos (by simpa using hz)]
        rw [appendToLast_snoc, chunksOf_snoc P hP done.length done e (Nat.le_refl _),
          if_pos hz]
        simp
      · rw [if_neg (by simpa using hz)]
        rw [chunksOf_snoc P hP done.length done e (Nat.le_refl _), if_neg hz]
    have hlen : done.length + 1 = (done ++ [e]).length := by simp
    rw [hstep, hlen, ih (done ++ [e])]
    simp

theorem buildPages_eq_chunksOf {α : Type} (es : List α) (P : Nat) (hP : 0 < P) :
    buildPages es P = chunksOf es P := by
  have := buildPagesAux_chunksOf P hP es []
  simpa [buildPages, chunksOf] using this

theorem chunksOf_getElem {α : Type} (P : Nat) (hP : 0 < P) :
    ∀ (k : Nat) (es : List α), k < (chunksOf es P).length →
      (chunksOf es P)[k]? = some ((es.drop (k * P)).take P) := by
  intro k
  induction k with
  | zero =>
    intro es hk
    cases es with
    | nil => simp [chunksOf, chunksOfAux] at hk
    | cons e es2 =>
      rw [chunksOf, List.length_cons, chunksOfAux]
      simp
  | succ k ih =>
    intro es hk
    cases es with
    | nil => simp [chunksOf, chunksOfAux] at hk
    | cons e es2 =>
      have hcons : chunksOf (e :: es2) P =
          (e :: es2).take P :: chunksOf ((e :: es2).drop P) P := by
        rw [chunksOf, List.length_cons, chunksOfAux]
        congr 1
        rw [chunksOf]
        apply chunksOfAux_congr P hP
        · simp only [List.length_drop, List.length_cons]
          omega
        · exact Nat.le_refl _
      rw [hcons] at hk ⊢
      simp only [List.length_cons, Nat.succ_lt_succ_iff] at hk
      rw [List.getElem?_cons_succ]
      rw [ih ((e :: es2).drop P) hk]
      rw [List.drop_drop]
      congr 3
      ring

theorem tagLookup_nil (t : String) : tagLookup [] t = [] := rfl

theorem tagLookup_cons (p : String × List Entry) (ps : List (String × List Entry))
    (t : String) :
    tagLookup (p :: ps) t = if p.1 = t then p.2 else tagLookup ps t := by
  by_cases h : p.1 = t
  · rw [if_pos h, tagLookup, List.find?_cons_of_pos _ (by simp [h])]
    rfl
  · rw [if_neg h, tagLookup, List.find?_cons_of_neg _ (by simp [h])]
    rfl

theorem tagLookup_map_update_ne (ps : List (String × List Entry)) (t2 t : String)
    (e : Entry) (hne : t2 ≠ t) :
    tagLookup (ps.map (fun p => if p.1 == t2 then (p.1, p.2 ++ [e]) else p)) t
      = tagLookup ps t := by
  induction ps with
  | nil => rfl
  | cons p ps ih =>
    simp only [List.map_cons]
    by_cases hp : p.1 = t2
    · rw [if_pos (by simp [hp]), tagLookup_cons, tagLookup_cons]
      have hpt : ¬ p.1 = t := by rw [hp]; exact hne
      rw [if_neg hpt, if_neg hpt]
      exact ih
    · rw [if_neg (by simp [hp]), tagLookup_cons, tagLookup_cons]
      by_cases hpt : p.1 = t
      · rw [if_pos hpt, if_pos hpt]
      · rw [if_neg hpt, if_neg hpt]
        exact ih

theorem tagLookup_map_update_eq (ps : List (String × List Entry)) (t : String)
    (e : Entry) (hmem : ps.any (fun q => q.1 == t) = true) :
    tagLookup (ps.map (fun p => if p.1 == t then (p.1, p.2 ++ [e]) else p)) t
      = tagLookup ps t ++ [e] := by
  induction ps with
  | nil => simp at hmem
  | cons p ps ih =>
    simp only [List.map_cons]
    by_cases hp : p.1 = t
    · rw [if_pos (by simp [hp]), tagLookup_cons, tagLookup_cons]
      rw [if_pos hp]
      have : ((p.1, p.2 ++ [e]) : String × List Entry).1 = t := hp
      rw [if_pos this]
    · rw [if_neg (by simp [hp]), tagLookup_cons, tagLookup_cons]
      rw [if_neg hp, if_neg hp]
      apply ih
      simp only [List.any_cons, Bool.or_eq_true] at hmem
      rcases hmem with h1 | h2
      · exact absurd (by simpa using h1) hp
      · exact h2

theorem tagLookup_not_mem (m : List (String × List Entry)) (t : String)
    (hmem : m.any (fun q => q.1 == t) = false) :
    tagLookup m t = [] := by
  induction m with
  | nil => rfl
  | cons p ps ih =>
    simp only [List.any_cons, Bool.or_eq_false_iff] at hmem
    rw [tagLookup_cons, if_neg (by simpa using hmem.1)]
    exact ih hmem.2

theorem tagLookup_append_fresh (m : List (String × List Entry)) (t2 t : String)
    (e : Entry) (hmem : m.any (fun q => q.1 == t2) = false) :
    tagLookup (m ++ [(t2, [e])]) t
      = tagLookup m t ++ (if t2 = t then [e] else []) := by
  induction m with
  | nil =>
    rw [List.nil_append, tagLookup_cons, tagLookup_nil]
    simp
  | cons p ps ih =>
    simp only [List.any_cons, Bool.or_eq_false_iff] at hmem
    rw [List.cons_append, tagLookup_cons, tagLookup_cons]
    by_cases hpt : p.1 = t
    · rw [if_pos hpt, if_pos hpt]
      have hne : ¬ t2 = t := by
        intro hh
        have : (p.1 == t2) = true := by simp [hpt, hh]
        rw [hmem.1] at this
        exact Bool.false_ne_true this
      rw [if_neg hne, List.append_nil]
    · rw [if_neg hpt, if_neg hpt]
      exact ih hmem.2

theorem tagLookup_addTag (m : List (String × List Entry)) (t2 t : String) (e : Entry) :
    tagLookup (addTag m t2 e) t = tagLookup m t ++ (if t2 = t then [e] else []) := by
  rw [addTag]
  by_cases hmem : m.any (fun p => p.1 == t2) = true
  · rw [if_pos hmem]
    by_cases h : t2 = t
    · subst h
      rw [if_pos rfl, tagLookup_map_update_eq m t2 e hmem]
    · rw [if_neg h, List.append_nil, tagLookup_map_update_ne m t2 t e h]
  · rw [if_neg hmem]
    exact tagLookup_append_fresh m t2 t e (Bool.of_not_eq_true hmem)

theorem tagLookup_foldTags (tags : List String) (m : List (String × List Entry))
    (t : String) (e : Entry) :
    tagLookup (tags.foldl (fun m2 t2 => addTag m2 t2 e) m) t
      = tagLookup m t ++ List.replicate (tags.count t) e := by
  induction tags generalizing m with
  | nil => simp
  | cons t2 tags ih =>
    rw [List.foldl_cons, ih (addTag m t2 e), tagLookup_addTag]
    by_cases h : t2 = t
    · subst h
      simp [List.count_cons, List.append_assoc, List.replicate_succ]
    · rw [if_neg h, List.append_nil]
      have hc : (t2 :: tags).count t = tags.count t := by
        have h2 : ¬ t = t2 := fun hh => h hh.symm
        simp [List.count_cons, h2]
      rw [hc]

theorem tagLookup_buildTags (es : List Entry) (t : String) :
    tagLookup (buildTags es) t = tagOccurrences t es := by
  suffices h : ∀ m, tagLookup (es.foldl
      (fun m e => e.tags.foldl (fun m2 t2 => addTag m2 t2 e) m) m) t
      = tagLookup m t ++ tagOccurrences t es by
    have h0 := h []
    rw [tagLookup_nil, List.nil_append] at h0
    exact h0
  induction es with
  | nil =>
    intro m
    rw [List.foldl_nil, tagOccurrences, List.append_nil]
  | cons e es ih =>
    intro m
    rw [List.foldl_cons, ih, tagLookup_foldTags, tagOccurrences, List.append_assoc]

/-! ### Concrete sample inputs used by the claim theorems -/

def sampleDate : DateTime := ⟨2024, 1, 1, 0, 0, 0⟩

def mkEntry (i : Nat) : Entry :=
  ⟨"e" ++ decRepr i, "T", "D", [], sampleDate, sampleDate, [], "L", "B", "F"⟩

/-- A corpus of 25 entries, for the pagination example of the claim. -/
def sample25 : List Entry := (List.range 25).map mkEntry

/-- Two headings both originally carrying id `intro`. -/
def introDoc : List Heading :=
  [⟨"h2", some "intro", [], []⟩, ⟨"h2", some "intro", [], []⟩]

/-- A plain `h4` with an id, a plain `h5` with an id, and an `h4` carrying
CSS class `h5` with an id. -/
def h45Doc : List Heading :=
  [⟨"h4", some "s1", [], []⟩, ⟨"h5", some "s2", [], []⟩,
   ⟨"h4", some "s3", ["h5"], []⟩]

/-- A document whose only block is a playground marker quote with no code
sibling. -/
def markerOnlyDoc : List PBlock := [PBlock.bq "Playground: runtime=go"]

/-- A metadata mapping missing the required key `updated` and carrying an
unparseable `published` timestamp. -/
def mdMissingUpdated : List (String × String) :=
  [("title", "t"), ("description", "d"), ("published", "bad"), ("tags", "x")]

/-- The test image of the spec: `./images/photo-320.png` wrapped in a link
with no hostname under a paragraph. -/
def photoCtx : ImgCtx :=
  ⟨"./images/photo-320.png", ImgParent.link "./images/photo-320.png" true⟩

/-- A quote block directly nested inside another quote block. -/
def nestedQuoteDoc : List BNode := [BNode.quote [] [BNode.quote [] []]]

/-- An entry declaring the same tag twice in its frontmatter tag list. -/
def dupTagEntry : Entry :=
  ⟨"s", "t", "d", [], sampleDate, sampleDate, ["x", "x"], "l", "b", "f"⟩

/-! ### The claim theorems -/

/-- C1: for a corpus in published-descending order and page size `P > 0`,
page `k` (1-indexed) holds exactly the entries in positions
`[(k-1)P, kP)` (the final page short), `more` is `page_num != pages_len`
(true on every page but the last), the index output receives page 1's
entry list with `more` true exactly when there is more than one page, and
25 entries at page size 10 give 3 pages with page 1 `more=true`, page 3
`more=false`, and index content equal to page 1's content. -/
theorem claim_c1_pagination (es : List Entry) (P k : Nat) (hP : 0 < P)
    (hk1 : 1 ≤ k) (hk2 : k ≤ pagesLen es P) :
    ((buildPages es P)[k - 1]? = some ((es.drop ((k - 1) * P)).take P))
    ∧ (morePage es P k = true ↔ k ≠ pagesLen es P)
    ∧ ((buildPages es P)[0]? = some (indexEntries es P))
    ∧ (moreIndex es P = true ↔ 1 < pagesLen es P)
    ∧ (pagesLen sample25 10 = 3 ∧ morePage sample25 10 1 = true
        ∧ morePage sample25 10 3 = false
        ∧ indexEntries sample25 10 = (buildPages sample25 10).headD []) := by
  have hlen : 0 < (buildPages es P).length := by
    rw [pagesLen] at hk2
    omega
  refine ⟨?_, ?_, ?_, ?_, by decide⟩
  · rw [buildPages_eq_chunksOf es P hP]
    apply chunksOf_getElem P hP
    rw [pagesLen, buildPages_eq_chunksOf es P hP] at hk2
    omega
  · rw [morePage]
    simp [bne_iff_ne]
  · rw [indexEntries, if_pos (by rw [pagesLen]; omega)]
    cases hb : buildPages es P with
    | nil => rw [hb] at hlen; simp at hlen
    | cons p ps => simp
  · rw [moreIndex]
    simp

theorem claim_c1_pagination_witness :
    ((buildPages sample25 10)[2 - 1]? = some ((sample25.drop ((2 - 1) * 10)).take 10))
    ∧ (morePage sample25 10 2 = true ↔ 2 ≠ pagesLen sample25 10)
    ∧ ((buildPages sample25 10)[0]? = some (indexEntries sample25 10))
    ∧ (moreIndex sample25 10 = true ↔ 1 < pagesLen sample25 10)
    ∧ (pagesLen sample25 10 = 3 ∧ morePage sample25 10 1 = true
        ∧ morePage sample25 10 3 = false
        ∧ indexEntries sample25 10 = (buildPages sample25 10).headD []) :=
  claim_c1_pagination sample25 10 2 (by decide) (by decide) (by decide)

/-- C2: in the page variant, every level-1 to level-3 heading carrying a
(truthy) identifier receives a slash-prefixed id uniquified against the ids
already assigned in the document (numeric suffix on collision,
first-encountered order), gets a self-link anchor appended and the bookmark
marker class added, the set of assigned ids has no duplicates, and two
headings both originally carrying id `intro` resolve to `/intro` and
`/intro-1`.  The uniqueness set is the `[]` the definition starts each
document from, so it is fresh per call. -/
theorem claim_c2_heading_ids :
    (∀ hs : List Heading, ((fixHeadings [] hs).2).Nodup)
    ∧ (∀ hs : List Heading, List.Forall₂ headingRel hs (fixHeadings [] hs).1)
    ∧ (fixAnchorsHeadings introDoc).map Heading.id? = [some "/intro", some "/intro-1"]
    ∧ (fixAnchorsHeadings introDoc).map Heading.classes = [["js-Bookmark"], ["js-Bookmark"]]
    ∧ (fixAnchorsHeadings introDoc).map Heading.children = [["#/intro"], ["#/intro-1"]] :=
  ⟨fun hs => fixHeadings_snd_nodup hs [] List.nodup_nil,
   fun hs => fixHeadings_forall₂ hs [],
   by decide, by decide, by decide⟩

/-- C3, counterexample: a document holding one marker quote block with no
code sibling sets `has_playground = True` although zero conversions occur
and the document is unchanged, so `has_playground` is not equivalent to "at
least one marker block was converted". -/
theorem claim_c3_counterexample :
    (convertPlaygroundBlocks false markerOnlyDoc).hasPlayground = true
    ∧ (convertPlaygroundBlocks false markerOnlyDoc).conversions = 0
    ∧ (convertPlaygroundBlocks false markerOnlyDoc).blocks = markerOnlyDoc := by
  decide

/-- C3, amended: a marker quote block not immediately followed by a
preformatted-code sibling is silently skipped (a document with no
convertible marker/code pair comes out unchanged, with zero conversions),
while `has_playground` is true exactly when at least one marker block is
present (converted or not) and `runtime` folds the `runtime` parameter of
every marker block seen, later markers winning. -/
theorem claim_c3_amended (isFeed : Bool) (blocks : List PBlock) :
    ((convertPlaygroundBlocks isFeed blocks).hasPlayground = blocks.any isMarkerBlock)
    ∧ ((convertPlaygroundBlocks isFeed blocks).runtime = runtimeFold "" blocks)
    ∧ (hasConvertiblePair blocks = false →
        (convertPlaygroundBlocks isFeed blocks).blocks = blocks
        ∧ (convertPlaygroundBlocks isFeed blocks).conversions = 0) := by
  refine ⟨?_, ?_, fun h => ?_⟩
  · rw [convertPlaygroundBlocks, convertPGAux_hasPlayground]
    simp
  · exact convertPGAux_runtime isFeed false "" 0 blocks
  · exact convertPGAux_no_pair isFeed false "" 0 blocks h

theorem claim_c3_amended_witness :
    ((convertPlaygroundBlocks true markerOnlyDoc).hasPlayground
      = markerOnlyDoc.any isMarkerBlock)
    ∧ ((convertPlaygroundBlocks true markerOnlyDoc).blocks = markerOnlyDoc
        ∧ (convertPlaygroundBlocks true markerOnlyDoc).conversions = 0) :=
  ⟨(claim_c3_amended true markerOnlyDoc).1,
   (claim_c3_amended true markerOnlyDoc).2.2 (by decide)⟩

/-- C4, counterexample: the frontmatter reads happen in source order with
each timestamp parsed as soon as it is read, so a document that is missing
the required key `updated` but whose `published` value is unparseable fails
with the date-format error, not the missing-field error the claim
promises for every document missing a required key. -/
theorem claim_c4_counterexample :
    mlookup mdMissingUpdated "updated" = none
    ∧ "updated" ∈ requiredKeys
    ∧ parseFrontmatter mdMissingUpdated = Except.error (IngestError.dateFormat "bad")
    ∧ ∀ k : String,
        parseFrontmatter mdMissingUpdated ≠ Except.error (IngestError.missingField k) := by
  refine ⟨rfl, by decide, rfl, ?_⟩
  intro k h
  rw [show parseFrontmatter mdMissingUpdated
      = Except.error (IngestError.dateFormat "bad") from rfl] at h
  exact absurd (Except.error.inj h) (by simp)

/-- C4, amended: ingestion fails with the missing-field error naming the
first absent required key when every timestamp read before that key
parses; it fails with the date-format error naming the offending value
when the keys read before that timestamp are present and the timestamp
fails strict ISO-8601 parsing.  Reads happen in the source order title,
description, published, updated, tags, with each timestamp parsed
immediately, so the five missing-field cases below hypothesize exactly the
timestamps read before the first absent key: none for `title`,
`description` and `published`, a parsing `published` for `updated`, and
both parsing timestamps for `tags`. -/
theorem claim_c4_amended (md : List (String × String)) :
    (mlookup md "title" = none →
      parseFrontmatter md = Except.error (IngestError.missingField "title"))
    ∧ (mlookup md "title" ≠ none → mlookup md "description" = none →
      parseFrontmatter md = Except.error (IngestError.missingField "description"))
    ∧ (mlookup md "title" ≠ none → mlookup md "description" ≠ none →
      mlookup md "published" = none →
      parseFrontmatter md = Except.error (IngestError.missingField "published"))
    ∧ (∀ ps, mlookup md "title" ≠ none → mlookup md "description" ≠ none →
      mlookup md "published" = some ps → parseIso ps ≠ none →
      mlookup md "updated" = none →
      parseFrontmatter md = Except.error (IngestError.missingField "updated"))
    ∧ (∀ ps us, mlookup md "title" ≠ none → mlookup md "description" ≠ none →
      mlookup md "published" = some ps → parseIso ps ≠ none →
      mlookup md "updated" = some us → parseIso us ≠ none →
      mlookup md "tags" = none →
      parseFrontmatter md = Except.error (IngestError.missingField "tags"))
    ∧ (∀ ps, mlookup md "title" ≠ none → mlookup md "description" ≠ none →
        mlookup md "published" = some ps → parseIso ps = none →
        parseFrontmatter md = Except.error (IngestError.dateFormat ps))
    ∧ (∀ ps us, mlookup md "title" ≠ none → mlookup md "description" ≠ none →
        mlookup md "published" = some ps → parseIso ps ≠ none →
        mlookup md "updated" = some us → parseIso us = none →
        parseFrontmatter md = Except.error (IngestError.dateFormat us)) := by
  refine ⟨?_, ?_, ?_, ?_, ?_, ?_, ?_⟩
  · intro hts
    simp only [parseFrontmatter, hts]
  · intro ht hds
    rcases hts : mlookup md "title" with _ | t
    · exact absurd hts ht
    · simp only [parseFrontmatter, hts, hds]
  · intro ht hd hps
    rcases hts : mlookup md "title" with _ | t
    · exact absurd hts ht
    · rcases hds : mlookup md "description" with _ | d
      · exact absurd hds hd
      · simp only [parseFrontmatter, hts, hds, hps]
  · intro ps ht hd hps hpok hus
    rcases hts : mlookup md "title" with _ | t
    · exact absurd hts ht
    · rcases hds : mlookup md "description" with _ | d
      · exact absurd hds hd
      · rcases hpv : parseIso ps with _ | pv
        · exact absurd hpv hpok
        · simp only [parseFrontmatter, hts, hds, hps, hpv, hus]
  · intro ps us ht hd hps hpok hus huok htg
    rcases hts : mlookup md "title" with _ | t
    · exact absurd hts ht
    · rcases hds : mlookup md "description" with _ | d
      · exact absurd hds hd
      · rcases hpv : parseIso ps with _ | pv
        · exact absurd hpv hpok
        · rcases huv : parseIso us with _ | uv
          · exact absurd huv huok
          · simp only [parseFrontmatter, hts, hds, hps, hpv, hus, huv, htg]
  · intro ps ht hd hps hbad
    rcases hts : mlookup md "title" with _ | t
    · exact absurd hts ht
    · rcases hds : mlookup md "description" with _ | d
      · exact absurd hds hd
      · simp only [parseFrontmatter, hts, hds, hps, hbad]
  · intro ps us ht hd hps hpok hus hbad
    rcases hts : mlookup md "title" with _ | t
    · exact absurd hts ht
    · rcases hds : mlookup md "description" with _ | d
      · exact absurd hds hd
      · rcases hpv : parseIso ps with _ | pv
        · exact absurd hpv hpok
        · simp only [parseFrontmatter, hts, hds, hps, hpv, hus, hbad]

theorem claim_c4_amended_witness :
    parseFrontmatter [("description", "d"), ("updated", "bad")]
        = Except.error (IngestError.missingField "title")
    ∧ parseFrontmatter [("title", "t"), ("description", "d"), ("published", "2024-01-01"),
          ("updated", "2024-01-02")]
        = Except.error (IngestError.missingField "tags")
    ∧ parseFrontmatter [("title", "t"), ("description", "d"), ("published", "2024-01-01")]
        = Except.error (IngestError.missingField "updated")
    ∧ parseFrontmatter mdMissingUpdated
        = Except.error (IngestError.dateFormat "bad") :=
  ⟨(claim_c4_amended [("description", "d"), ("updated", "bad")]).1 (by decide),
   (claim_c4_amended [("title", "t"), ("description", "d"), ("published", "2024-01-01"),
        ("updated", "2024-01-02")]).2.2.2.2.1 "2024-01-01" "2024-01-02" (by decide)
      (by decide) (by decide) (by decide) (by decide) (by decide) (by decide),
   (claim_c4_amended [("title", "t"), ("description", "d"),
        ("published", "2024-01-01")]).2.2.2.1 "2024-01-01" (by decide) (by decide)
      (by decide) (by decide) (by decide),
   (claim_c4_amended mdMissingUpdated).2.2.2.2.2.1 "bad" (by decide) (by decide)
      (by decide) (by decide)⟩

/-- C5: at the failing input `./images/photo-320.png` (wrapped in a link
with no hostname under a paragraph) the code centers the grandparent
paragraph and rewrites `src`, but assigns no width class: the pattern of
line 253 is the raw string `-(\\d{1,3})$`, whose doubled backslash makes it
match a literal backslash followed by `d` characters rather than digits, so
`photo-320` never matches. -/
theorem claim_c5_width_class :
    (processBodyImg "example.com" photoCtx).widthClass = none
    ∧ (processBodyImg "example.com" photoCtx).grandClass = some "text-center"
    ∧ (processBodyImg "example.com" photoCtx).src = "/images/photo-320.png"
    ∧ widthSuffix (splitextRoot "./images/photo-320.png") = none := by
  decide

/-- C6, counterexample: in the feed variant the image `src` is rewritten to
the absolute domain URL, not to the root-relative `/images/{basename}` the
claim asserts for both variants. -/
theorem claim_c6_counterexample :
    (processFeedImg "example.com" "./images/photo-320.png").src
      = "https://example.com/images/photo-320.png"
    ∧ (processFeedImg "example.com" "./images/photo-320.png").src
        ≠ "/images/photo-320.png" := by
  decide

/-- C6, amended: in the page variant every image's `src` ends up as
`/images/{basename}` and a parent link's target is synchronized to the same
path; in the feed variant every image's `src` ends up as the absolute URL
`https://{domain}/images/{basename}`. -/
theorem claim_c6_amended (domain : String) (c : ImgCtx) (src : String) :
    (processBodyImg domain c).src = "/images/" ++ basename c.src
    ∧ (processBodyImg domain c).href
        = (match c.parent with
           | ImgParent.link _ _ => some ("/images/" ++ basename c.src)
           | _ => none)
    ∧ (processFeedImg domain src).src
        = "https://" ++ domain ++ "/images/" ++ basename src := by
  refine ⟨?_, ?_, rfl⟩ <;>
    · rcases c with ⟨csrc, parent⟩
      cases parent with
      | para => simp [processBodyImg]
      | link href gp =>
        simp only [processBodyImg]
        split
        · simp
        · split
          · simp
          · simp
      | plain => simp [processBodyImg]

/-- C7, counterexample: the two variants do not transform a nested quote
identically: both unwrap it one level, but only the page variant re-tags
the promoted quote as a `note` callout; the feed variant leaves its classes
unchanged. -/
theorem claim_c7_counterexample :
    cleanupBlockquotes true nestedQuoteDoc = [BNode.quote [] []]
    ∧ cleanupBlockquotes false nestedQuoteDoc = [BNode.quote ["note"] []]
    ∧ cleanupBlockquotes true nestedQuoteDoc ≠ cleanupBlockquotes false nestedQuoteDoc := by
  refine ⟨rfl, rfl, ?_⟩
  intro h
  rw [show cleanupBlockquotes true nestedQuoteDoc = [BNode.quote [] []] from rfl,
    show cleanupBlockquotes false nestedQuoteDoc = [BNode.quote ["note"] []] from rfl] at h
  simp at h

/-- C7, amended: a quote block directly nested inside another quote block
is unwrapped one level in both variants, but only the page variant re-tags
it as a `note` callout (its class attribute set to `note`); the feed
variant keeps its classes. -/
theorem claim_c7_amended (cls icls : List String) (children ich : List BNode)
    (h : children.find? isQuote = some (BNode.quote icls ich)) :
    cleanupTop true (BNode.quote cls children) = BNode.quote icls ich
    ∧ cleanupTop false (BNode.quote cls children) = BNode.quote ["note"] ich := by
  rw [cleanupTop, cleanupTop, h]
  exact ⟨rfl, rfl⟩

theorem claim_c7_amended_witness :
    cleanupTop true (BNode.quote [] [BNode.quote [] []]) = BNode.quote [] []
    ∧ cleanupTop false (BNode.quote [] [BNode.quote [] []]) = BNode.quote ["note"] [] :=
  claim_c7_amended [] [] [BNode.quote [] []] [] rfl

/-- C8: after the page-variant anchor fix-up, a plain `h4` heading and a
plain `h5` heading keep their identifiers, because
`soup.find_all("h4", "h5")` passes `"h5"` as the `attrs` argument (a CSS
class filter), matching only `h4` elements whose class list contains `h5` -
such as the third heading, which does lose its id.  This contradicts the
claim (and the source's own comment "Strip IDs from the rest of
headers"). -/
theorem claim_c8_h45_ids :
    (fixAnchorsHeadings h45Doc).map Heading.id? = [some "s1", some "s2", none] := by
  decide

/-- C9, counterexample: an entry declaring the tag `x` twice appears twice
in that tag's member list; the grouping loop appends once per occurrence,
not once per entry. -/
theorem claim_c9_counterexample :
    tagLookup (buildTags [dupTagEntry]) "x" = [dupTagEntry, dupTagEntry]
    ∧ ¬ (tagLookup (buildTags [dupTagEntry]) "x").Nodup := by
  decide

/-- C9, amended: the mapping is built in one forward pass over the corpus
and each tag's member list holds, in corpus order, one copy of each entry
per occurrence of the tag in that entry's (trimmed) tag list; grouping key
equality is exact string equality. -/
theorem claim_c9_amended (es : List Entry) (t : String) :
    tagLookup (buildTags es) t = tagOccurrences t es :=
  tagLookup_buildTags es t

/-- C10: the JSON serialization's `body` field holds the feed variant
`body_feed` when a body is included and is absent otherwise, and across the
run's JSON outputs a body is included exactly for the per-entry outputs;
listing pages, the index output and tag pages serialize entries without a
body. -/
theorem claim_c10_json_body (es : List Entry) (P : Nat) (e : Entry) :
    ((e.toJson true).body = some e.body_feed)
    ∧ ((e.toJson false).body = none)
    ∧ (∀ o ∈ runJsonOutputs es P, o.includeBody = decide (o.kind = OutKind.entryPage)) := by
  refine ⟨rfl, rfl, ?_⟩
  intro o ho
  rw [runJsonOutputs] at ho
  simp only [List.mem_append, List.mem_map, List.mem_singleton] at ho
  rcases ho with ((⟨e2, _, rfl⟩ | ⟨pr, _, rfl⟩) | rfl) | ⟨pr, _, rfl⟩
  · rfl
  · rfl
  · rfl
  · rfl

theorem claim_c10_json_body_witness :
    ((mkEntry 0).toJson true).body = some (mkEntry 0).body_feed
    ∧ (⟨OutKind.indexPage, "index", indexEntries [mkEntry 0] 1, false⟩ : JsonOut).includeBody
        = decide ((⟨OutKind.indexPage, "index", indexEntries [mkEntry 0] 1, false⟩ : JsonOut).kind
            = OutKind.entryPage) :=
  ⟨(claim_c10_json_body [mkEntry 0] 1 (mkEntry 0)).1,
   (claim_c10_json_body [mkEntry 0] 1 (mkEntry 0)).2.2 _ (by decide)⟩

end SiteGen
